import Mathlib

/-!
Verification of the PDF-to-audio pipeline in `backend/main.py`.

The Python source is shallowly embedded over `List Char`:
* Python `str` is modelled as `List Char`; `re.sub`, `str.replace`,
  `str.split`, `str.strip` and `re.findall` are modelled by executable
  Lean functions with the same leftmost / non-overlapping semantics.
* `\s`, `\d` and `[A-Z]` are modelled over their ASCII meaning, and the
  `re.IGNORECASE` flag as ASCII case-insensitivity; the inputs the
  pipeline handles and the properties checked here only involve ASCII.
* `int(60 + 30 * (i + 1) / total)` truncates a small non-negative
  rational, which is modelled by natural-number division.
-/


/-! ## Character classes -/

/-- ASCII whitespace, the characters matched by `\s` (and stripped by
`str.strip`) on the inputs considered here. -/
def isWsC (c : Char) : Bool :=
  c = ' ' || c = '\t' || c = '\n' || c = '\r' || c = '\x0b' || c = '\x0c'

/-- The character class `[A-Z]` from `clean_text_for_tts`. -/
def isAZ (c : Char) : Bool := 'A' ≤ c && c ≤ 'Z'

/-- The character class `\d` (ASCII digits). -/
def isDigitC (c : Char) : Bool := '0' ≤ c && c ≤ '9'

/-- ASCII lower-casing, used to model `re.IGNORECASE`. -/
def lowerA (c : Char) : Char := if isAZ c then Char.ofNat (c.toNat + 32) else c

/-! ## Python string primitives -/

/-- Helper for `collapseWs`: the boolean records whether the previous
input character was whitespace (in which case the current run has
already emitted its single space). -/
def collapseWsAux : List Char → Bool → List Char
  | [], _ => []
  | c :: rest, prevWs =>
    if isWsC c then
      if prevWs then collapseWsAux rest true
      else ' ' :: collapseWsAux rest true
    else c :: collapseWsAux rest false

/-- `re.sub(r"\s+", " ", text)`: every maximal whitespace run becomes a
single space. -/
def collapseWs (l : List Char) : List Char := collapseWsAux l false

/-- `re.sub(r"\.([A-Z])", ". \1", text)` (and the analogous rule for
commas): wherever `t` is immediately followed by an A-Z letter, a space
is inserted between them; matches are leftmost and non-overlapping, and
scanning resumes after the matched letter. -/
def insertSpaceAfter (t : Char) : List Char → List Char
  | c :: d :: rest =>
    if c = t ∧ isAZ d then c :: ' ' :: d :: insertSpaceAfter t rest
    else c :: insertSpaceAfter t (d :: rest)
  | l => l

/-- Fuelled worker for `replaceAll`; the fuel is an upper bound on the
number of scanning steps, each of which consumes at least one input
character. -/
def replaceAllF : Nat → List Char → List Char → List Char → List Char
  | 0, _, _, s => s
  | _ + 1, _, _, [] => []
  | fuel + 1, old, new, c :: rest =>
    if old.isPrefixOf (c :: rest) then
      new ++ replaceAllF fuel old new ((c :: rest).drop old.length)
    else
      c :: replaceAllF fuel old new rest

/-- `text.replace(old, new)`: leftmost non-overlapping occurrences of
`old` are replaced by `new`; scanning resumes after the replacement. -/
def replaceAll (old new s : List Char) : List Char := replaceAllF s.length old new s

/-- `text.strip()`: leading and trailing whitespace removed. -/
def stripChars (l : List Char) : List Char :=
  ((l.dropWhile isWsC).reverse.dropWhile isWsC).reverse

/-- The abbreviation table of `clean_text_for_tts`, in its iteration
order. -/
def abbreviations : List (List Char × List Char) :=
  [("et al.".toList, "et al".toList),
   ("e.g.".toList, "for example".toList),
   ("i.e.".toList, "that is".toList),
   ("vs.".toList, "versus".toList),
   ("etc.".toList, "et cetera".toList)]

/-! ## `clean_text_for_tts` -/

/-- `clean_text_for_tts` from `backend/main.py`: collapse whitespace,
insert a space after `.` and `,` when immediately followed by an A-Z
letter, expand the abbreviation table in order, and strip. -/
def clean_text_for_tts (l : List Char) : List Char :=
  let t1 := collapseWs l
  let t2 := insertSpaceAfter '.' t1
  let t3 := insertSpaceAfter ',' t2
  let t4 := abbreviations.foldl (fun s p => replaceAll p.1 p.2 s) t3
  stripChars t4

/-! ## `detect_figure_references` -/

/-- The shape of the regexes in `figure_patterns`: either a keyword
followed by `\s+\d+`, or two literal words separated by `\s+`.  All are
matched with `re.IGNORECASE`. -/
inductive FigPattern where
  | numbered (kw : List Char)
  | phrase (w1 w2 : List Char)
deriving DecidableEq

/-- Case-insensitive literal match at the head of `s`; returns the
matched characters as they appear in `s`, and the rest. -/
def matchCI : List Char → List Char → Option (List Char × List Char)
  | [], s => some ([], s)
  | _ :: _, [] => none
  | k :: ks, c :: cs =>
    if lowerA c = lowerA k then
      match matchCI ks cs with
      | some (m, rest) => some (c :: m, rest)
      | none => none
    else none

/-- Match one `FigPattern` at the head of `s` (greedy `\s+` and `\d+`,
which is exact here because the runs are followed by a character of a
disjoint class). -/
def matchPat : FigPattern → List Char → Option (List Char × List Char)
  | .numbered kw, s =>
    match matchCI kw s with
    | none => none
    | some (m1, r1) =>
      let ws := r1.takeWhile isWsC
      if ws.isEmpty then none
      else
        let r2 := r1.drop ws.length
        let ds := r2.takeWhile isDigitC
        if ds.isEmpty then none
        else some (m1 ++ ws ++ ds, r2.drop ds.length)
  | .phrase w1 w2, s =>
    match matchCI w1 s with
    | none => none
    | some (m1, r1) =>
      let ws := r1.takeWhile isWsC
      if ws.isEmpty then none
      else
        match matchCI w2 (r1.drop ws.length) with
        | none => none
        | some (m2, r2) => some (m1 ++ ws ++ m2, r2)

/-- Fuelled worker for `findAllPat`; each step consumes at least one
input character. -/
def findAllPatF : Nat → FigPattern → List Char → List (List Char)
  | 0, _, _ => []
  | _ + 1, _, [] => []
  | fuel + 1, p, c :: rest =>
    match matchPat p (c :: rest) with
    | some (m, rem) => m :: findAllPatF fuel p rem
    | none => findAllPatF fuel p rest

/-- `re.findall(pattern, text, re.IGNORECASE)` for one pattern:
leftmost non-overlapping matches, in positional order. -/
def findAllPat (p : FigPattern) (text : List Char) : List (List Char) :=
  findAllPatF text.length p text

/-- The `figure_patterns` list of `detect_figure_references`, in source
order. -/
def figure_patterns : List FigPattern :=
  [.numbered "figure".toList,
   .numbered "table".toList,
   .numbered "chart".toList,
   .numbered "graph".toList,
   .numbered "diagram".toList,
   .phrase "see".toList "above".toList,
   .phrase "see".toList "below".toList,
   .phrase "as".toList "shown".toList,
   .phrase "illustrated".toList "in".toList]

/-- Result shape of `detect_figure_references`. -/
structure DetectResult where
  has_figure_reference : Bool
  figure_references : List (List Char)
deriving DecidableEq

/-- `detect_figure_references` from `backend/main.py`: the pattern list
is traversed in order and each pattern's `findall` matches are appended
to `references`. -/
def detect_figure_references (text : List Char) : DetectResult :=
  let references := figure_patterns.foldl (fun acc p => acc ++ findAllPat p text) []
  { has_figure_reference := references.length > 0
    figure_references := references }

/-! ## `extract_text_from_pdf` -/

/-- Fuelled worker for `splitOnSep` (`str.split(sep)` with a non-empty
separator): leftmost non-overlapping separator occurrences cut the
string; the accumulator holds the current field reversed. -/
def splitOnSepF : Nat → List Char → List Char → List Char → List (List Char)
  | 0, _, acc, s => [acc.reverse ++ s]
  | _ + 1, _, acc, [] => [acc.reverse]
  | fuel + 1, sep, acc, c :: rest =>
    if sep.isPrefixOf (c :: rest) then
      acc.reverse :: splitOnSepF fuel sep [] ((c :: rest).drop sep.length)
    else
      splitOnSepF fuel sep (c :: acc) rest

/-- `text.split(sep)` for a non-empty separator. -/
def splitOnSep (sep s : List Char) : List (List Char) :=
  splitOnSepF (s.length + 1) sep [] s

/-- A raw segment as built by `extract_text_from_pdf`: the dict
`{"text": ..., "page": ..., "total_pages": ...}`. -/
structure RawSegment where
  text : List Char
  page : Nat
  total_pages : Nat
deriving DecidableEq

/-- The body of `extract_text_from_pdf`'s per-page loop: if the page's
extracted text is non-empty and not whitespace-only, split it on blank
lines, strip each candidate paragraph, drop empty ones, and keep those
longer than 50 characters. -/
def pageSegments (text : List Char) (page_num total_pages : Nat) : List RawSegment :=
  if text ≠ [] ∧ stripChars text ≠ [] then
    let paragraphs := ((splitOnSep "\n\n".toList text).map stripChars).filter (· ≠ [])
    (paragraphs.filter (fun p => p.length > 50)).map
      (fun p => { text := p, page := page_num, total_pages := total_pages })
  else []

/-- `extract_text_from_pdf` from `backend/main.py`.  A PDF is modelled
by the list of its pages' `extract_text()` results (`none` when
`extract_text` returns `None`); `len(pdf.pages)` is the list length and
pages are enumerated from 1. -/
def extract_text_from_pdf (pages : List (Option (List Char))) : List RawSegment :=
  pages.enum.flatMap
    (fun pg =>
      match pg.2 with
      | none => []
      | some t => pageSegments t (pg.1 + 1) pages.length)

/-! ## `process_text_segments` -/

/-- A processed segment: the `TextSegment` pydantic model. -/
structure TextSegment where
  text : List Char
  page : Nat
  has_figure_reference : Bool
  figure_references : List (List Char)
deriving DecidableEq

/-- `process_text_segments` from `backend/main.py`: detection runs on
the raw text, then cleaning runs on the raw text. -/
def process_text_segments (segments : List RawSegment) : List TextSegment :=
  segments.map
    (fun segment =>
      let ref_info := detect_figure_references segment.text
      let cleaned_text := clean_text_for_tts segment.text
      { text := cleaned_text
        page := segment.page
        has_figure_reference := ref_info.has_figure_reference
        figure_references := ref_info.figure_references })

/-! ## `generate_audio_for_segment` -/

/-- Decimal digits of `n`, used to model Python's `str`/format of a
non-negative integer. -/
def natDigits (n : Nat) : List Char := (toString n).toList

/-- `f"{i:04d}"`: the decimal form of `i` left-padded with zeros to at
least 4 characters. -/
def pad4 (i : Nat) : List Char :=
  let s := natDigits i
  List.replicate (4 - s.length) '0' ++ s

/-- The output path `os.path.join(output_dir, f"segment_{i:04d}.wav")`. -/
def segmentPath (output_dir : List Char) (i : Nat) : List Char :=
  output_dir ++ "/segment_".toList ++ pad4 i ++ ".wav".toList

/-- The text actually spoken for a segment: when the segment has figure
references, the announcement naming them (joined with `", "`) is
prepended to the cleaned text. -/
def text_to_speak (segment : TextSegment) : List Char :=
  if segment.has_figure_reference then
    "Please refer to ".toList ++ List.intercalate ", ".toList segment.figure_references ++
      " mentioned in this section. ".toList ++ segment.text
  else segment.text

/-- `generate_audio_for_segment` from `backend/main.py`.  `ttsOk` is
whether `tts_model` loaded at startup; `synth i text` is whether the
`tts_to_file` call for segment index `i` on `text` succeeds.  The
function raises (returns `.error`) when the model is unavailable or the
synthesis call raises; otherwise it writes and returns the output
path. -/
def generate_audio_for_segment (ttsOk : Bool) (synth : Nat → List Char → Bool)
    (segment : TextSegment) (output_dir : List Char) (segment_index : Nat) :
    Except (List Char) (List Char) :=
  if !ttsOk then .error "TTS model not available".toList
  else
    let tts := text_to_speak segment
    if synth segment_index tts then .ok (segmentPath output_dir segment_index)
    else .error "synthesis failed".toList

/-! ## The job registry entries -/

/-- The `ProcessingStatus` pydantic model. -/
structure ProcessingStatus where
  stage : List Char
  progress : Nat
  message : Option (List Char)
deriving DecidableEq

/-- The `ProcessingResult` pydantic model. -/
structure ProcessingResult where
  job_id : List Char
  segments : List TextSegment
  total_pages : Nat
  status : List Char
deriving DecidableEq

/-- A value stored in `processing_jobs[job_id]`: a tagged union of
status and result. -/
inductive RegistryEntry where
  | status (s : ProcessingStatus)
  | result (r : ProcessingResult)
deriving DecidableEq

/-- The fixed phase statuses written by `process_pdf_background`. -/
def statusExtracting : ProcessingStatus :=
  { stage := "Extracting text from PDF...".toList, progress := 20, message := none }

/-- Phase status with progress 40. -/
def statusAnalyzing : ProcessingStatus :=
  { stage := "Analyzing content for voice processing...".toList, progress := 40, message := none }

/-- Phase status with progress 60, written before the synthesis loop. -/
def statusGenerating : ProcessingStatus :=
  { stage := "Generating AI voice...".toList, progress := 60, message := none }

/-- Phase status with progress 100, written after the synthesis loop. -/
def statusFinalizing : ProcessingStatus :=
  { stage := "Finalizing...".toList, progress := 100, message := none }

/-- The per-segment progress status written after a successful
synthesis of segment index `i` (0-based): stage
`f"Generating audio segment {i+1}/{total}..."` and progress
`int(60 + 30 * (i + 1) / total)`. -/
def genStatus (i total : Nat) : ProcessingStatus :=
  { stage := "Generating audio segment ".toList ++ natDigits (i + 1) ++ "/".toList ++
      natDigits total ++ "...".toList
    progress := 60 + 30 * (i + 1) / total
    message := none }

/-! ## The synthesis loop of `process_pdf_background` -/

/-- The `for i, segment in enumerate(processed_segments)` loop, started
at index `i`: on a successful attempt the audio path is appended and a
progress status is written; on a failed attempt the exception is caught
and the loop continues with no append and no status write.  Returns the
audio list and the sequence of status writes of the loop, in order. -/
def audioLoop (ttsOk : Bool) (synth : Nat → List Char → Bool) (audio_dir : List Char)
    (total : Nat) : Nat → List TextSegment → List (List Char) × List ProcessingStatus
  | _, [] => ([], [])
  | i, seg :: rest =>
    match generate_audio_for_segment ttsOk synth seg audio_dir i with
    | .ok f =>
      let tail := audioLoop ttsOk synth audio_dir total (i + 1) rest
      (f :: tail.1, genStatus i total :: tail.2)
    | .error _ => audioLoop ttsOk synth audio_dir total (i + 1) rest

/-- The observable outcome of one successful run of
`process_pdf_background`: the ordered sequence of registry overwrites,
the final audio list for the job, and the terminal result. -/
structure JobRun where
  writes : List RegistryEntry
  audio_files : List (List Char)
  final : ProcessingResult
deriving DecidableEq

/-- `process_pdf_background` from `backend/main.py`, on the path where
extraction succeeds (no exception escapes): the three phase statuses
are written, the synthesis loop runs, the finalizing status is written,
and the entry is overwritten with a `completed` `ProcessingResult`
whose `total_pages` is taken from the first raw segment (0 when there
are none). -/
def process_pdf_background (job_id : List Char) (pages : List (Option (List Char)))
    (audio_dir : List Char) (ttsOk : Bool) (synth : Nat → List Char → Bool) : JobRun :=
  let segments := extract_text_from_pdf pages
  let processed_segments := process_text_segments segments
  let total_segments := processed_segments.length
  let loopOut := audioLoop ttsOk synth audio_dir total_segments 0 processed_segments
  let result : ProcessingResult :=
    { job_id := job_id
      segments := processed_segments
      total_pages := match segments with | [] => 0 | s :: _ => s.total_pages
      status := "completed".toList }
  { writes := [.status statusExtracting, .status statusAnalyzing, .status statusGenerating] ++
      loopOut.2.map .status ++ [.status statusFinalizing, .result result]
    audio_files := loopOut.1
    final := result }

/-! ## `get_audio_segment` -/

/-- The possible responses of the fetch-segment-audio endpoint: a 404,
an uncaught `IndexError` (a server error, not a 404), or the file. -/
inductive AudioResponse where
  | notFound (detail : List Char)
  | indexError
  | fileResponse (path filename : List Char)
deriving DecidableEq

/-- Python list indexing `files[i]`: negative indices count from the
end; `none` models an `IndexError`. -/
def pyListGet (files : List (List Char)) (i : Int) : Option (List Char) :=
  let j : Int := if i < 0 then (files.length : Int) + i else i
  if 0 ≤ j ∧ j < (files.length : Int) then files.get? j.toNat else none

/-- `get_audio_segment` from `backend/main.py`.  `entry` is
`audio_files.get(job_id)` (`none` when the job has no audio list) and
`onDisk` is `os.path.exists`.  The code rejects `segment_index >= len`
with a 404, then indexes the list with Python semantics, then checks
the file on disk, and finally serves it under the download name
`f"segment_{segment_index}.wav"`. -/
def get_audio_segment (entry : Option (List (List Char))) (onDisk : List Char → Bool)
    (segment_index : Int) : AudioResponse :=
  match entry with
  | none => .notFound "Audio files not found".toList
  | some files =>
    if (files.length : Int) ≤ segment_index then .notFound "Segment not found".toList
    else
      match pyListGet files segment_index with
      | none => .indexError
      | some audio_file =>
        if !onDisk audio_file then .notFound "Audio file not found".toList
        else
          .fileResponse audio_file
            ("segment_".toList ++ (toString segment_index).toList ++ ".wav".toList)

/-! ## Adjacent-pair invariants of the cleaner -/

/-- `noPairB P l` holds when no two adjacent characters of `l` satisfy
`P`. -/
def noPairB (P : Char → Char → Bool) : List Char → Bool
  | c :: d :: rest => !P c d && noPairB P (d :: rest)
  | _ => true

/-- Two adjacent whitespace characters (the pair forbidden in collapsed
text). -/
def wsWs (c d : Char) : Bool := isWsC c && isWsC d

/-- `t` immediately followed by an A-Z letter (the pair rewritten by
`insertSpaceAfter t`). -/
def pafter (t : Char) (c d : Char) : Bool := c = t && isAZ d

/-- `.` or `,` immediately followed by an A-Z letter. -/
def punctUpper (c d : Char) : Bool := (c = '.' || c = ',') && isAZ d

/-- A character that is whitespace but not a plain space. -/
def oddWs (c : Char) : Bool := isWsC c && !(c = ' ')

/-- Head character is whitespace. -/
def headWs : List Char → Bool
  | [] => false
  | c :: _ => isWsC c

/-! ## Maximal whitespace runs -/

/-- Helper for `wsRuns`: `acc` holds the current (reversed) whitespace
run. -/
def wsRunsAux : List Char → List Char → List (List Char)
  | [], acc => if acc.isEmpty then [] else [acc.reverse]
  | c :: rest, acc =>
    if isWsC c then wsRunsAux rest (c :: acc)
    else if acc.isEmpty then wsRunsAux rest [] else acc.reverse :: wsRunsAux rest []

/-- The maximal whitespace runs of a string, in order: the whitespace
structure of a text. -/
def wsRuns (l : List Char) : List (List Char) := wsRunsAux l []

/-- A 50-character paragraph (boundary: discarded). -/
def para50 : List Char := List.replicate 50 'x'

/-- A 51-character paragraph (boundary: kept). -/
def para51 : List Char := List.replicate 51 'y'

/-- A page holding a 50-character and a 51-character paragraph
separated by a blank line. -/
def page5051 : List Char := para50 ++ "\n\n".toList ++ para51

/-! ## The synthesis loop in closed form -/

/-- Whether the synthesis attempt for enumerated segment `p` succeeds. -/
def attemptOk (ttsOk : Bool) (synth : Nat → List Char → Bool)
    (p : Nat × TextSegment) : Bool :=
  ttsOk && synth p.1 (text_to_speak p.2)

/-! ## Demonstration inputs -/

/-- A one-page document whose page holds three paragraphs of 60
characters, so extraction yields exactly three segments. -/
def demoPage3 : List Char :=
  List.replicate 60 'a' ++ "\n\n".toList ++ List.replicate 60 'b' ++ "\n\n".toList ++
    List.replicate 60 'c'

/-- The page list of the three-segment document. -/
def demoPages3 : List (Option (List Char)) := [some demoPage3]

/-- A one-page document yielding exactly one segment. -/
def demoPages1 : List (Option (List Char)) := [some (List.replicate 60 'a')]

/-- The progress component of a registry write (`none` for the terminal
result write). -/
def entryProgress : RegistryEntry → Option Nat
  | .status s => some s.progress
  | .result _ => none

/-- Whether an endpoint response is a 404. -/
def isNotFound : AudioResponse → Bool
  | .notFound _ => true
  | _ => false

set_option maxRecDepth 8000

example : clean_text_for_tts "a.B".toList = "a. B".toList := by decide
example : clean_text_for_tts "a!B".toList = "a!B".toList := by decide
example : clean_text_for_tts "  hello \t world  ".toList = "hello world".toList := by decide
example : clean_text_for_tts "e.g. test".toList = "for example test".toList := by decide
example : clean_text_for_tts "e.g..g.x".toList = "for example.g.x".toList := by decide
example :
    clean_text_for_tts (clean_text_for_tts "e.g..g.x".toList) =
      "for examplfor examplex".toList := by decide
example : clean_text_for_tts "a,Bc vs. d".toList = "a, Bc versus d".toList := by decide

example :
    (detect_figure_references "Results are shown in Figure 3 and Table 2.".toList).figure_references
      = ["Figure 3".toList, "Table 2".toList] := by decide

example :
    (detect_figure_references "TABLE  12 and figure 5; as   Shown, see\tbelow.".toList).figure_references
      = ["figure 5".toList, "TABLE  12".toList, "see\tbelow".toList, "as   Shown".toList] := by
  decide

example : (detect_figure_references "no references here".toList).has_figure_reference = false := by
  decide

example : splitOnSep "\n\n".toList "a\n\nb\n\n".toList = ["a".toList, "b".toList, []] := by decide

example : pad4 0 = "0000".toList := by decide
example : pad4 12 = "0012".toList := by decide
example : pad4 12345 = "12345".toList := by decide

example :
    get_audio_segment (some ["f".toList]) (fun _ => true) (-1) =
      .fileResponse "f".toList "segment_-1.wav".toList := by decide
example : get_audio_segment (some ["f".toList]) (fun _ => true) 1 =
    .notFound "Segment not found".toList := by decide
example : get_audio_segment (some []) (fun _ => true) (-1) = .indexError := by decide
example : get_audio_segment none (fun _ => true) 0 =
    .notFound "Audio files not found".toList := by decide

theorem noPairB_tail {P : Char → Char → Bool} {c : Char} {l : List Char}
    (h : noPairB P (c :: l) = true) : noPairB P l = true := by
  cases l with
  | nil => rfl
  | cons d rest =>
    simp only [noPairB, Bool.and_eq_true] at h
    exact h.2

theorem noPairB_cons_head {P : Char → Char → Bool} {c d : Char} {l : List Char}
    (h : noPairB P (c :: d :: l) = true) : P c d = false := by
  simp only [noPairB, Bool.and_eq_true, Bool.not_eq_true'] at h
  exact h.1

theorem noPairB_cons_of {P : Char → Char → Bool} {a : Char} {l : List Char}
    (h1 : noPairB P l = true) (h2 : ∀ d, l.head? = some d → P a d = false) :
    noPairB P (a :: l) = true := by
  cases l with
  | nil => rfl
  | cons d rest =>
    simp only [noPairB, Bool.and_eq_true, Bool.not_eq_true']
    exact ⟨h2 d rfl, h1⟩

theorem noPairB_cons_of_left {P : Char → Char → Bool} {a : Char} {l : List Char}
    (h1 : noPairB P l = true) (h2 : ∀ d, P a d = false) :
    noPairB P (a :: l) = true :=
  noPairB_cons_of h1 (fun d _ => h2 d)

theorem noPairB_append_of {P : Char → Char → Bool} :
    ∀ {x y : List Char}, noPairB P x = true → noPairB P y = true →
      (∀ a b, x.getLast? = some a → y.head? = some b → P a b = false) →
      noPairB P (x ++ y) = true := by
  intro x
  induction x with
  | nil => intro y _ hy _; simpa using hy
  | cons a xs ih =>
    intro y hx hy hb
    cases xs with
    | nil =>
      exact noPairB_cons_of hy (fun d hd => hb a d rfl hd)
    | cons b xs' =>
      have hx' : noPairB P (b :: xs') = true := noPairB_tail hx
      have hb' : ∀ p q, (b :: xs').getLast? = some p → y.head? = some q → P p q = false := by
        intro p q hp hq
        exact hb p q (by simpa [List.getLast?_cons_cons] using hp) hq
      have := ih hx' hy hb'
      refine noPairB_cons_of this ?_
      intro d hd
      simp only [List.cons_append, List.head?_cons] at hd
      cases hd
      exact noPairB_cons_head hx

theorem noPairB_append_right {P : Char → Char → Bool} :
    ∀ {x y : List Char}, noPairB P (x ++ y) = true → noPairB P y = true := by
  intro x
  induction x with
  | nil => intro y h; simpa using h
  | cons a xs ih => intro y h; exact ih (noPairB_tail h)

theorem noPairB_append_left {P : Char → Char → Bool} :
    ∀ {x y : List Char}, noPairB P (x ++ y) = true → noPairB P x = true := by
  intro x
  induction x with
  | nil => intro y _; rfl
  | cons a xs ih =>
    intro y h
    cases xs with
    | nil => rfl
    | cons b xs' =>
      have h1 : P a b = false := noPairB_cons_head h
      have h2 : noPairB P (b :: xs') = true := ih (noPairB_tail h)
      simp only [noPairB, Bool.and_eq_true, Bool.not_eq_true']
      exact ⟨h1, h2⟩

theorem noPairB_of_isInfix {P : Char → Char → Bool} {t s : List Char}
    (h : t <:+: s) (hs : noPairB P s = true) : noPairB P t = true := by
  rcases h with ⟨a, b, rfl⟩
  exact noPairB_append_left (noPairB_append_right (x := a) (by simpa using hs))


/-! ## Stage lemmas for the text cleaner -/

theorem headWs_collapseWsAux_true : ∀ l : List Char, headWs (collapseWsAux l true) = false := by
  intro l
  induction l with
  | nil => rfl
  | cons c rest ih =>
    cases h : isWsC c with
    | true => simpa [collapseWsAux, h] using ih
    | false => simp [collapseWsAux, h, headWs]

theorem headWs_false_head? {l : List Char} {d : Char} (h : headWs l = false)
    (hd : l.head? = some d) : isWsC d = false := by
  cases l with
  | nil => simp at hd
  | cons c rest =>
    simp only [List.head?_cons, Option.some.injEq] at hd
    cases hd
    simpa [headWs] using h

theorem wsWs_false_right {d : Char} (h : isWsC d = false) : ∀ c, wsWs c d = false := by
  intro c; simp [wsWs, h]

theorem wsWs_false_left {c : Char} (h : isWsC c = false) : ∀ d, wsWs c d = false := by
  intro d; simp [wsWs, h]

theorem noPairB_wsWs_collapseWsAux : ∀ (l : List Char) (b : Bool),
    noPairB wsWs (collapseWsAux l b) = true := by
  intro l
  induction l with
  | nil => intro b; rfl
  | cons c rest ih =>
    intro b
    cases h : isWsC c with
    | true =>
      cases b with
      | true => simpa [collapseWsAux, h] using ih true
      | false =>
        simp only [collapseWsAux, h, if_true]
        refine noPairB_cons_of (ih true) ?_
        intro d hd
        exact wsWs_false_right (headWs_false_head? (headWs_collapseWsAux_true rest) hd) ' '
    | false =>
      simp only [collapseWsAux, h, Bool.false_eq_true, if_false]
      exact noPairB_cons_of_left (ih false) (wsWs_false_left h)

theorem allNotOddWs_collapseWsAux : ∀ (l : List Char) (b : Bool),
    (collapseWsAux l b).all (fun c => !oddWs c) = true := by
  intro l
  induction l with
  | nil => intro b; rfl
  | cons c rest ih =>
    intro b
    cases h : isWsC c with
    | true =>
      cases b with
      | true => simpa [collapseWsAux, h] using ih true
      | false =>
        have hrec := ih true
        simp only [oddWs] at hrec
        simp only [collapseWsAux, h, if_true]
        simpa [oddWs] using hrec
    | false =>
      have hrec := ih false
      simp only [oddWs] at hrec
      simp only [collapseWsAux, h]
      simpa [oddWs, h] using hrec

/-! ## Stage lemmas: `insertSpaceAfter` -/

theorem head?_insertSpaceAfter (t : Char) : ∀ l : List Char,
    (insertSpaceAfter t l).head? = l.head?
  | [] => rfl
  | [_] => rfl
  | c :: d :: rest => by
    by_cases h : c = t ∧ isAZ d = true
    · simp [insertSpaceAfter, h]
    · simp [insertSpaceAfter, h]

theorem isWsC_eq_false_of_isAZ {d : Char} (h : isAZ d = true) : isWsC d = false := by
  cases hw : isWsC d with
  | false => rfl
  | true =>
    exfalso
    simp only [isWsC, Bool.or_eq_true, decide_eq_true_eq] at hw
    rcases hw with ((((rfl | rfl) | rfl) | rfl) | rfl) | rfl <;> simp [isAZ] at h

theorem pafter_false_of_ne {t c : Char} (h : (c = t : Bool) = false) :
    ∀ d, pafter t c d = false := by
  intro d; simp [pafter, h]

theorem pafter_false_of_notAZ {t d : Char} (h : isAZ d = false) :
    ∀ c, pafter t c d = false := by
  intro c; simp [pafter, h]

theorem noPairB_pafter_insertSpaceAfter {t : Char} (ht1 : isAZ t = false)
    (ht2 : (' ' = t : Bool) = false) :
    ∀ l : List Char, noPairB (pafter t) (insertSpaceAfter t l) = true
  | [] => rfl
  | [_] => rfl
  | c :: d :: rest => by
    have ih1 := noPairB_pafter_insertSpaceAfter ht1 ht2 rest
    have ih2 := noPairB_pafter_insertSpaceAfter ht1 ht2 (d :: rest)
    by_cases h : c = t ∧ isAZ d = true
    · simp only [insertSpaceAfter, if_pos h]
      have hAZ : isAZ d = true := h.2
      have hdt : (d = t : Bool) = false := by
        cases he : (d = t : Bool) with
        | false => rfl
        | true =>
          have hdt' : d = t := of_decide_eq_true he
          rw [hdt', ht1] at hAZ
          exact absurd hAZ (by simp)
      have hX : noPairB (pafter t) (d :: insertSpaceAfter t rest) = true :=
        noPairB_cons_of_left ih1 (pafter_false_of_ne hdt)
      have hSp : noPairB (pafter t) (' ' :: d :: insertSpaceAfter t rest) = true :=
        noPairB_cons_of_left hX (pafter_false_of_ne ht2)
      refine noPairB_cons_of hSp ?_
      intro e he
      simp only [List.head?_cons, Option.some.injEq] at he
      cases he
      exact pafter_false_of_notAZ (by decide) c
    · simp only [insertSpaceAfter, if_neg h]
      refine noPairB_cons_of ih2 ?_
      intro e he
      rw [head?_insertSpaceAfter] at he
      simp only [List.head?_cons, Option.some.injEq] at he
      cases he
      cases hp : pafter t c d with
      | false => rfl
      | true =>
        exfalso
        simp only [pafter, Bool.and_eq_true, decide_eq_true_eq] at hp
        exact h ⟨hp.1, hp.2⟩

theorem noPairB_insertSpaceAfter_of {Q : Char → Char → Bool} {t : Char}
    (hQ1 : Q t ' ' = false) (hQ2 : ∀ d, isAZ d = true → Q ' ' d = false) :
    ∀ l : List Char, noPairB Q l = true → noPairB Q (insertSpaceAfter t l) = true
  | [] => fun _ => rfl
  | [_] => fun _ => rfl
  | c :: d :: rest => by
    intro hl
    have hl1 : noPairB Q (d :: rest) = true := noPairB_tail hl
    have ih1 := noPairB_insertSpaceAfter_of hQ1 hQ2 rest (noPairB_tail hl1)
    have ih2 := noPairB_insertSpaceAfter_of hQ1 hQ2 (d :: rest) hl1
    by_cases h : c = t ∧ isAZ d = true
    · simp only [insertSpaceAfter, if_pos h]
      have hX : noPairB Q (d :: insertSpaceAfter t rest) = true := by
        refine noPairB_cons_of ih1 ?_
        intro e he
        rw [head?_insertSpaceAfter] at he
        cases rest with
        | nil => simp at he
        | cons f r =>
          simp only [List.head?_cons, Option.some.injEq] at he
          cases he
          exact noPairB_cons_head hl1
      have hSp : noPairB Q (' ' :: d :: insertSpaceAfter t rest) = true := by
        refine noPairB_cons_of hX ?_
        intro e he
        simp only [List.head?_cons, Option.some.injEq] at he
        cases he
        exact hQ2 d h.2
      refine noPairB_cons_of hSp ?_
      intro e he
      simp only [List.head?_cons, Option.some.injEq] at he
      cases he
      rw [h.1]
      exact hQ1
    · simp only [insertSpaceAfter, if_neg h]
      refine noPairB_cons_of ih2 ?_
      intro e he
      rw [head?_insertSpaceAfter] at he
      simp only [List.head?_cons, Option.some.injEq] at he
      cases he
      exact noPairB_cons_head hl

theorem all_insertSpaceAfter_of {Q : Char → Bool} {t : Char} (hsp : Q ' ' = true) :
    ∀ l : List Char, l.all Q = true → (insertSpaceAfter t l).all Q = true
  | [] => fun _ => rfl
  | [_] => fun h => h
  | c :: d :: rest => by
    intro hl
    simp only [List.all_cons, Bool.and_eq_true] at hl
    have ih1 := all_insertSpaceAfter_of (t := t) hsp rest hl.2.2
    have ih2 := all_insertSpaceAfter_of (t := t) hsp (d :: rest)
      (by simp [List.all_cons, hl.2.1, hl.2.2])
    by_cases h : c = t ∧ isAZ d = true
    · simp [insertSpaceAfter, if_pos h, List.all_cons, hl.1, hl.2.1, hsp, ih1]
    · simp [insertSpaceAfter, if_neg h, List.all_cons, hl.1, ih2]

/-! ## Stage lemmas: `replaceAll` and `stripChars` -/

theorem noPairB_drop {Q : Char → Char → Bool} {s : List Char} (n : Nat)
    (h : noPairB Q s = true) : noPairB Q (s.drop n) = true :=
  noPairB_of_isInfix (List.drop_suffix n s).isInfix h

theorem head?_replaceAllF {old new : List Char} (hne : new ≠ []) :
    ∀ (fuel : Nat) (s : List Char) (d : Char),
      (replaceAllF fuel old new s).head? = some d →
      new.head? = some d ∨ s.head? = some d := by
  intro fuel s d h
  cases fuel with
  | zero => exact Or.inr h
  | succ f =>
    cases s with
    | nil => simp [replaceAllF] at h
    | cons c rest =>
      by_cases hp : old.isPrefixOf (c :: rest) = true
      · simp only [replaceAllF, hp, if_true] at h
        cases new with
        | nil => exact absurd rfl hne
        | cons n0 ns =>
          simp only [List.cons_append, List.head?_cons, Option.some.injEq] at h
          exact Or.inl (by rw [List.head?_cons, h])
      · simp only [replaceAllF, hp, Bool.false_eq_true, if_false, List.head?_cons,
          Option.some.injEq] at h
        exact Or.inr (by rw [List.head?_cons, h])

theorem noPairB_replaceAllF {Q : Char → Char → Bool} {old new : List Char}
    (hne : new ≠ []) (hnew : noPairB Q new = true)
    (hhead : ∀ c d, new.head? = some d → Q c d = false)
    (hlast : ∀ c d, new.getLast? = some c → Q c d = false) :
    ∀ (fuel : Nat) (s : List Char), noPairB Q s = true →
      noPairB Q (replaceAllF fuel old new s) = true := by
  intro fuel
  induction fuel with
  | zero => intro s h; exact h
  | succ f ih =>
    intro s h
    cases s with
    | nil => rfl
    | cons c rest =>
      by_cases hp : old.isPrefixOf (c :: rest) = true
      · simp only [replaceAllF, hp, if_true]
        refine noPairB_append_of hnew (ih _ (noPairB_drop _ h)) ?_
        intro a b ha _
        exact hlast a b ha
      · simp only [replaceAllF, hp, Bool.false_eq_true, if_false]
        refine noPairB_cons_of (ih rest (noPairB_tail h)) ?_
        intro d hd
        rcases head?_replaceAllF hne f rest d hd with h1 | h2
        · exact hhead c d h1
        · cases rest with
          | nil => simp at h2
          | cons e r =>
            simp only [List.head?_cons, Option.some.injEq] at h2
            cases h2
            exact noPairB_cons_head h

theorem all_drop {Q : Char → Bool} {s : List Char} (n : Nat)
    (h : s.all Q = true) : (s.drop n).all Q = true := by
  rw [List.all_eq_true] at h ⊢
  exact fun x hx => h x (List.mem_of_mem_drop hx)

theorem all_replaceAllF {Q : Char → Bool} {old new : List Char}
    (hnew : new.all Q = true) :
    ∀ (fuel : Nat) (s : List Char), s.all Q = true →
      (replaceAllF fuel old new s).all Q = true := by
  intro fuel
  induction fuel with
  | zero => intro s h; exact h
  | succ f ih =>
    intro s h
    cases s with
    | nil => rfl
    | cons c rest =>
      simp only [List.all_cons, Bool.and_eq_true] at h
      by_cases hp : old.isPrefixOf (c :: rest) = true
      · simp only [replaceAllF, hp, if_true, List.all_append, Bool.and_eq_true]
        refine ⟨hnew, ih _ (all_drop _ ?_)⟩
        simp [List.all_cons, h.1, h.2]
      · simp only [replaceAllF, hp, Bool.false_eq_true, if_false, List.all_cons,
          Bool.and_eq_true]
        exact ⟨h.1, ih rest h.2⟩

theorem stripChars_isInfix (l : List Char) : stripChars l <:+: l := by
  have h1 : l.dropWhile isWsC <:+ l := List.dropWhile_suffix isWsC
  have h2 : (l.dropWhile isWsC).reverse.dropWhile isWsC <:+ (l.dropWhile isWsC).reverse :=
    List.dropWhile_suffix isWsC
  have h3 : stripChars l <+: l.dropWhile isWsC := by
    have := List.reverse_prefix.mpr h2
    simpa [stripChars] using this
  exact h3.isInfix.trans h1.isInfix

theorem noPairB_stripChars {Q : Char → Char → Bool} {l : List Char}
    (h : noPairB Q l = true) : noPairB Q (stripChars l) = true :=
  noPairB_of_isInfix (stripChars_isInfix l) h

theorem all_stripChars {Q : Char → Bool} {l : List Char}
    (h : l.all Q = true) : (stripChars l).all Q = true := by
  rw [List.all_eq_true] at h ⊢
  exact fun x hx => h x ((stripChars_isInfix l).subset hx)

/-! ## The abbreviation fold -/

theorem noPairB_foldl_replaceAll {Q : Char → Char → Bool} :
    ∀ (ps : List (List Char × List Char)) (l : List Char),
      (∀ p ∈ ps, p.2 ≠ [] ∧ noPairB Q p.2 = true ∧
        (∀ c d, p.2.head? = some d → Q c d = false) ∧
        (∀ c d, p.2.getLast? = some c → Q c d = false)) →
      noPairB Q l = true →
      noPairB Q (ps.foldl (fun s p => replaceAll p.1 p.2 s) l) = true := by
  intro ps
  induction ps with
  | nil => intro l _ h; exact h
  | cons p ps ih =>
    intro l hps hl
    simp only [List.foldl_cons]
    rcases hps p (List.mem_cons_self p ps) with ⟨h1, h2, h3, h4⟩
    exact ih _ (fun q hq => hps q (List.mem_cons_of_mem p hq))
      (noPairB_replaceAllF h1 h2 h3 h4 _ _ hl)

theorem all_foldl_replaceAll {Q : Char → Bool} :
    ∀ (ps : List (List Char × List Char)) (l : List Char),
      (∀ p ∈ ps, p.2.all Q = true) → l.all Q = true →
      (ps.foldl (fun s p => replaceAll p.1 p.2 s) l).all Q = true := by
  intro ps
  induction ps with
  | nil => intro l _ h; exact h
  | cons p ps ih =>
    intro l hps hl
    simp only [List.foldl_cons]
    exact ih _ (fun q hq => hps q (List.mem_cons_of_mem p hq))
      (all_replaceAllF (hps p (List.mem_cons_self p ps)) _ _ hl)

theorem noPairB_or {P Q : Char → Char → Bool} {l : List Char} :
    noPairB P l = true → noPairB Q l = true →
    noPairB (fun a b => P a b || Q a b) l = true := by
  induction l with
  | nil => intro _ _; rfl
  | cons c rest ih =>
    intro hp hq
    cases rest with
    | nil => rfl
    | cons d r =>
      simp only [noPairB, Bool.and_eq_true, Bool.not_eq_true', Bool.or_eq_false_iff]
      exact ⟨⟨noPairB_cons_head hp, noPairB_cons_head hq⟩,
        by
          have := ih (noPairB_tail hp) (noPairB_tail hq)
          simpa [noPairB] using this⟩

theorem noPairB_congr {P Q : Char → Char → Bool} (h : ∀ a b, P a b = Q a b) :
    ∀ l : List Char, noPairB P l = noPairB Q l := by
  intro l
  induction l with
  | nil => rfl
  | cons c rest ih =>
    cases rest with
    | nil => rfl
    | cons d r => simp [noPairB, h c d, ih]

theorem punctUpper_false_of_notAZ {d : Char} (h : isAZ d = false) :
    ∀ c, punctUpper c d = false := by
  intro c; simp [punctUpper, h]

theorem punctUpper_false_of_ne {c : Char} (h : (c = '.' || c = ',' : Bool) = false) :
    ∀ d, punctUpper c d = false := by
  intro d; simp [punctUpper, h]

theorem abbrev_cond_wsWs : ∀ p ∈ abbreviations,
    p.2 ≠ [] ∧ noPairB wsWs p.2 = true ∧
    (∀ c d, p.2.head? = some d → wsWs c d = false) ∧
    (∀ c d, p.2.getLast? = some c → wsWs c d = false) := by
  intro p hp
  fin_cases hp <;>
    exact ⟨by decide, by decide,
      fun c d hd => by injection hd with h; subst h; exact wsWs_false_right (by decide) c,
      fun c d hd => by injection hd with h; subst h; exact wsWs_false_left (by decide) d⟩

theorem abbrev_cond_punctUpper : ∀ p ∈ abbreviations,
    p.2 ≠ [] ∧ noPairB punctUpper p.2 = true ∧
    (∀ c d, p.2.head? = some d → punctUpper c d = false) ∧
    (∀ c d, p.2.getLast? = some c → punctUpper c d = false) := by
  intro p hp
  fin_cases hp <;>
    exact ⟨by decide, by decide,
      fun c d hd => by
        injection hd with h; subst h; exact punctUpper_false_of_notAZ (by decide) c,
      fun c d hd => by
        injection hd with h; subst h; exact punctUpper_false_of_ne (by decide) d⟩

theorem abbrev_cond_notOddWs : ∀ p ∈ abbreviations,
    (p.2.all fun c => !oddWs c) = true := by
  intro p hp
  fin_cases hp <;> decide

/-! ## Invariants of the cleaned text -/

theorem clean_noPairB_wsWs (l : List Char) :
    noPairB wsWs (clean_text_for_tts l) = true := by
  apply noPairB_stripChars
  apply noPairB_foldl_replaceAll _ _ abbrev_cond_wsWs
  apply noPairB_insertSpaceAfter_of (by decide)
    (fun d h => wsWs_false_right (isWsC_eq_false_of_isAZ h) ' ')
  apply noPairB_insertSpaceAfter_of (by decide)
    (fun d h => wsWs_false_right (isWsC_eq_false_of_isAZ h) ' ')
  exact noPairB_wsWs_collapseWsAux l false

theorem clean_all_notOddWs (l : List Char) :
    ((clean_text_for_tts l).all fun c => !oddWs c) = true := by
  apply all_stripChars
  apply all_foldl_replaceAll _ _ abbrev_cond_notOddWs
  apply all_insertSpaceAfter_of (by decide)
  apply all_insertSpaceAfter_of (by decide)
  exact allNotOddWs_collapseWsAux l false

theorem punctUpper_eq_or (a b : Char) :
    punctUpper a b = (pafter '.' a b || pafter ',' a b) := by
  cases hb : isAZ b <;> simp [punctUpper, pafter, hb]

theorem clean_noPairB_punctUpper (l : List Char) :
    noPairB punctUpper (clean_text_for_tts l) = true := by
  apply noPairB_stripChars
  apply noPairB_foldl_replaceAll _ _ abbrev_cond_punctUpper
  have hdot : noPairB (pafter '.')
      (insertSpaceAfter ',' (insertSpaceAfter '.' (collapseWs l))) = true := by
    apply noPairB_insertSpaceAfter_of (by decide)
      (fun d _ => pafter_false_of_ne (by decide) d)
    exact noPairB_pafter_insertSpaceAfter (by decide) (by decide) (collapseWs l)
  have hcomma : noPairB (pafter ',')
      (insertSpaceAfter ',' (insertSpaceAfter '.' (collapseWs l))) = true :=
    noPairB_pafter_insertSpaceAfter (by decide) (by decide) _
  have hor := noPairB_or hdot hcomma
  rw [noPairB_congr punctUpper_eq_or]
  exact hor

theorem wsRuns_single_space : ∀ (l : List Char) (acc : List Char),
    (acc = [] ∨ (acc = [' '] ∧ headWs l = false)) →
    noPairB wsWs l = true → (l.all fun c => !oddWs c) = true →
    ∀ r ∈ wsRunsAux l acc, r = [' '] := by
  intro l
  induction l with
  | nil =>
    intro acc hacc _ _ r hr
    rcases hacc with rfl | ⟨rfl, _⟩
    · simp [wsRunsAux] at hr
    · simp only [wsRunsAux, List.isEmpty_cons, Bool.false_eq_true, if_false,
        List.reverse_cons, List.reverse_nil, List.nil_append, List.mem_singleton] at hr
      exact hr
  | cons c rest ih =>
    intro acc hacc hnp hall r hr
    simp only [List.all_cons, Bool.and_eq_true] at hall
    cases hws : isWsC c with
    | true =>
      have hc : c = ' ' := by
        have h1 := hall.1
        simp only [oddWs, hws, Bool.true_and, Bool.not_not] at h1
        simpa using h1
      rcases hacc with rfl | ⟨rfl, hhead⟩
      · subst hc
        simp only [wsRunsAux, hws, if_true] at hr
        refine ih [' '] (Or.inr ⟨rfl, ?_⟩) (noPairB_tail hnp) hall.2 r hr
        cases rest with
        | nil => rfl
        | cons d rr =>
          have hpair := noPairB_cons_head hnp
          simp only [wsWs, hws, Bool.true_and] at hpair
          simpa [headWs] using hpair
      · exfalso
        simp [headWs, hws] at hhead
    | false =>
      rcases hacc with rfl | ⟨rfl, _⟩
      · simp only [wsRunsAux, hws, Bool.false_eq_true, if_false, List.isEmpty_nil,
          if_true] at hr
        exact ih [] (Or.inl rfl) (noPairB_tail hnp) hall.2 r hr
      · simp only [wsRunsAux, hws, Bool.false_eq_true, if_false, List.isEmpty_cons,
          List.reverse_cons, List.reverse_nil, List.nil_append, List.mem_cons] at hr
        rcases hr with rfl | hr
        · rfl
        · exact ih [] (Or.inl rfl) (noPairB_tail hnp) hall.2 r hr

theorem wsRuns_clean_replicate (l : List Char) :
    wsRuns (clean_text_for_tts l) =
      List.replicate (wsRuns (clean_text_for_tts l)).length [' '] :=
  List.eq_replicate_iff.2 ⟨rfl,
    fun b hb => wsRuns_single_space _ [] (Or.inl rfl)
      (clean_noPairB_wsWs l) (clean_all_notOddWs l) b hb⟩

/-! ## Claims C7 and C8 -/

/-- C7 (counterexample): the Text Cleaner inserts no space between a
sentence-terminating `!` and a following uppercase letter: on input
`"a!B"` the output is `"a!B"` unchanged and contains no space at all,
although the claim requires a space between `!` and `B`. -/
theorem C7_counterexample :
    clean_text_for_tts "a!B".toList = "a!B".toList ∧
      ¬ ' ' ∈ clean_text_for_tts "a!B".toList := by decide

/-- C7 (amended): the Text Cleaner inserts a space only after `.` and
`,` when immediately followed by an uppercase A-Z letter — its output
never contains `.` or `,` immediately followed by such a letter — while
`!`, `?`, `;`, `:` receive no inserted space (see the counterexample).
-/
theorem C7_amended_no_punct_before_upper (s : List Char) :
    noPairB punctUpper (clean_text_for_tts s) = true :=
  clean_noPairB_punctUpper s

/-- C8 (counterexample): cleaning twice does not always yield the same
whitespace structure as cleaning once.  On `"e.g..g.x"` the first pass
produces `"for example.g.x"` (one whitespace run), whose replacement
boundary re-creates the substring `"e.g."`; the second pass expands it
again, producing `"for examplfor examplex"` with two whitespace runs.
-/
theorem C8_counterexample :
    wsRuns (clean_text_for_tts (clean_text_for_tts "e.g..g.x".toList)) ≠
        wsRuns (clean_text_for_tts "e.g..g.x".toList) ∧
      wsRuns (clean_text_for_tts "e.g..g.x".toList) = [[' ']] ∧
      wsRuns (clean_text_for_tts (clean_text_for_tts "e.g..g.x".toList)) =
        [[' '], [' ']] := by decide

/-- C8 (amended): every maximal whitespace run of once-cleaned output
is a single space, and this remains true of twice-cleaned output (the
whitespace-collapsed form is preserved), although a second cleaning can
change the number of runs when an abbreviation occurrence survives the
first pass (see the counterexample). -/
theorem C8_amended_whitespace_single_spaces (s : List Char) :
    wsRuns (clean_text_for_tts s) =
        List.replicate (wsRuns (clean_text_for_tts s)).length [' '] ∧
      wsRuns (clean_text_for_tts (clean_text_for_tts s)) =
        List.replicate
          (wsRuns (clean_text_for_tts (clean_text_for_tts s))).length [' '] :=
  ⟨wsRuns_clean_replicate s, wsRuns_clean_replicate (clean_text_for_tts s)⟩

/-! ## Lemmas for the PDF segmenter -/

theorem stripChars_eq_nil_iff (l : List Char) :
    stripChars l = [] ↔ l.all isWsC = true := by
  constructor
  · intro h
    have h1 : (l.dropWhile isWsC).reverse.dropWhile isWsC = [] := by
      have := congrArg List.reverse h
      simpa [stripChars] using this
    rw [List.dropWhile_eq_nil_iff] at h1
    have h2 : ∀ x ∈ l.dropWhile isWsC, isWsC x = true := by
      intro x hx
      exact h1 x (List.mem_reverse.mpr hx)
    rw [List.all_eq_true]
    intro x hx
    rw [← List.takeWhile_append_dropWhile (p := isWsC) (l := l)] at hx
    rcases List.mem_append.mp hx with h3 | h3
    · exact List.mem_takeWhile_imp h3
    · exact h2 x h3
  · intro h
    have h1 : l.dropWhile isWsC = [] := by
      rw [List.dropWhile_eq_nil_iff]
      intro x hx
      exact List.all_eq_true.mp h x hx
    simp [stripChars, h1]

theorem mem_of_mem_splitOnSepF :
    ∀ (fuel : Nat) (sep acc s q : List Char), q ∈ splitOnSepF fuel sep acc s →
      ∀ x ∈ q, x ∈ acc ∨ x ∈ s := by
  intro fuel
  induction fuel with
  | zero =>
    intro sep acc s q hq x hx
    simp only [splitOnSepF, List.mem_singleton] at hq
    subst hq
    rcases List.mem_append.mp hx with h | h
    · exact Or.inl (List.mem_reverse.mp h)
    · exact Or.inr h
  | succ f ih =>
    intro sep acc s q hq x hx
    cases s with
    | nil =>
      simp only [splitOnSepF, List.mem_singleton] at hq
      subst hq
      exact Or.inl (List.mem_reverse.mp hx)
    | cons c rest =>
      by_cases hp : sep.isPrefixOf (c :: rest) = true
      · simp only [splitOnSepF, hp, if_true, List.mem_cons] at hq
        rcases hq with rfl | hq
        · exact Or.inl (List.mem_reverse.mp hx)
        · rcases ih sep [] _ q hq x hx with h | h
          · simp at h
          · exact Or.inr (List.mem_of_mem_drop h)
      · simp only [splitOnSepF, hp, Bool.false_eq_true, if_false] at hq
        rcases ih sep (c :: acc) rest q hq x hx with h | h
        · rcases List.mem_cons.mp h with rfl | h
          · exact Or.inr (List.mem_cons_self x rest)
          · exact Or.inl h
        · exact Or.inr (List.mem_cons_of_mem c h)

theorem mem_of_mem_splitOnSep {sep s q : List Char} (hq : q ∈ splitOnSep sep s) :
    ∀ x ∈ q, x ∈ s := by
  intro x hx
  rcases mem_of_mem_splitOnSepF _ sep [] s q hq x hx with h | h
  · simp at h
  · exact h

/-- C5: a page whose extracted text is empty or whitespace-only
contributes zero segments; a stripped candidate paragraph is kept
exactly when it is longer than 50 characters, so a 50-character
paragraph is discarded and a 51-character one is kept; pages whose
`extract_text` returns `None` are skipped and page numbers are
1-based. -/
theorem C5_paragraph_filter :
    (∀ (t : List Char) (p tp : Nat), stripChars t = [] → pageSegments t p tp = []) ∧
    (∀ (t : List Char) (p tp : Nat) (q : List Char),
      q ∈ ((splitOnSep "\n\n".toList t).map stripChars).filter (· ≠ []) →
      (q ∈ (pageSegments t p tp).map RawSegment.text ↔ 50 < q.length)) ∧
    pageSegments page5051 1 1 = [{ text := para51, page := 1, total_pages := 1 }] ∧
    extract_text_from_pdf [some "   \n\n \t ".toList, none, some page5051] =
      [{ text := para51, page := 3, total_pages := 3 }] := by
  refine ⟨?_, ?_, by decide, by decide⟩
  · intro t p tp h
    simp [pageSegments, h]
  · intro t p tp q hq
    by_cases hg : t ≠ [] ∧ stripChars t ≠ []
    · simp only [pageSegments, if_pos hg]
      constructor
      · intro hmem
        rw [List.map_map] at hmem
        obtain ⟨a, ha, hEq⟩ := List.mem_map.mp hmem
        have ha' : a = q := hEq
        subst ha'
        have := (List.mem_filter.mp ha).2
        simpa using this
      · intro hlen
        refine List.mem_map.mpr ⟨{ text := q, page := p, total_pages := tp }, ?_, rfl⟩
        refine List.mem_map.mpr ⟨q, ?_, rfl⟩
        exact List.mem_filter.mpr ⟨hq, by simpa using hlen⟩
    · simp only [pageSegments, if_neg hg]
      constructor
      · intro hmem
        simp at hmem
      · intro hlen
        exfalso
        by_cases ht : t = []
        · subst ht
          have hnil :
              ((splitOnSep "\n\n".toList ([] : List Char)).map stripChars).filter
                (· ≠ []) = [] := by decide
          rw [hnil] at hq
          simp at hq
        · have hstrip : stripChars t = [] := by
            by_contra hs
            exact hg ⟨ht, hs⟩
          have hq' := List.mem_filter.mp hq
          obtain ⟨piece, hpiece, rfl⟩ := List.mem_map.mp hq'.1
          have hallws : piece.all isWsC = true := by
            rw [List.all_eq_true]
            intro x hx
            exact List.all_eq_true.mp ((stripChars_eq_nil_iff t).mp hstrip) x
              (mem_of_mem_splitOnSep hpiece x hx)
          have hnil2 : stripChars piece = [] := (stripChars_eq_nil_iff piece).mpr hallws
          rw [hnil2] at hq'
          simpa using hq'.2

/-- C5 witness: at concrete inputs, a whitespace-only page yields no
segments and the 51-character paragraph of `page5051` is kept. -/
theorem C5_paragraph_filter_witness :
    pageSegments "   ".toList 1 1 = [] ∧
      para51 ∈ (pageSegments page5051 1 1).map RawSegment.text :=
  ⟨C5_paragraph_filter.1 "   ".toList 1 1 (by decide),
    (C5_paragraph_filter.2.1 page5051 1 1 para51 (by decide)).mpr (by decide)⟩

/-! ## Claim C6 -/

theorem foldl_append_eq_flatten {α β : Type} (f : α → List β) :
    ∀ (ps : List α) (acc : List β),
      ps.foldl (fun a p => a ++ f p) acc = acc ++ (ps.map f).flatten := by
  intro ps
  induction ps with
  | nil => intro acc; simp
  | cons p ps ih => intro acc; simp [ih, List.append_assoc]

theorem detect_has_eq (text : List Char) :
    (detect_figure_references text).has_figure_reference =
      decide (0 < (detect_figure_references text).figure_references.length) := rfl

/-- C6: the detector returns, for every text, the concatenation of the
per-pattern `findall` results in the fixed pattern order (all Figure
matches, then all Table matches, and so on), `has_figure_reference` is
true exactly when the reference list is non-empty, and on
`"Results are shown in Figure 3 and Table 2."` the references are
`["Figure 3", "Table 2"]`. -/
theorem C6_detector_pattern_order :
    (∀ text : List Char,
      (detect_figure_references text).figure_references =
        (figure_patterns.map fun p => findAllPat p text).flatten) ∧
    (∀ text : List Char,
      (detect_figure_references text).has_figure_reference =
        !(detect_figure_references text).figure_references.isEmpty) ∧
    ((detect_figure_references
        "Results are shown in Figure 3 and Table 2.".toList).figure_references =
      ["Figure 3".toList, "Table 2".toList] ∧
      (detect_figure_references
        "Results are shown in Figure 3 and Table 2.".toList).has_figure_reference = true) := by
  refine ⟨?_, ?_, by decide, by decide⟩
  · intro text
    show figure_patterns.foldl (fun acc p => acc ++ findAllPat p text) [] =
      (figure_patterns.map fun p => findAllPat p text).flatten
    rw [foldl_append_eq_flatten]
    rfl
  · intro text
    rw [detect_has_eq]
    cases (detect_figure_references text).figure_references <;> simp

theorem generate_ok_iff (ttsOk : Bool) (synth : Nat → List Char → Bool)
    (seg : TextSegment) (dir : List Char) (i : Nat) :
    generate_audio_for_segment ttsOk synth seg dir i =
      (if ttsOk && synth i (text_to_speak seg) then .ok (segmentPath dir i)
       else if ttsOk then .error "synthesis failed".toList
       else .error "TTS model not available".toList) := by
  cases ttsOk with
  | false => rfl
  | true =>
    cases h : synth i (text_to_speak seg) with
    | false => simp [generate_audio_for_segment, h]
    | true => simp [generate_audio_for_segment, h]

theorem audioLoop_eq (ttsOk : Bool) (synth : Nat → List Char → Bool)
    (dir : List Char) (total : Nat) :
    ∀ (segs : List TextSegment) (i : Nat),
      audioLoop ttsOk synth dir total i segs =
        (((segs.enumFrom i).filter (attemptOk ttsOk synth)).map
            (fun p => segmentPath dir p.1),
         ((segs.enumFrom i).filter (attemptOk ttsOk synth)).map
            (fun p => genStatus p.1 total)) := by
  intro segs
  induction segs with
  | nil => intro i; rfl
  | cons seg rest ih =>
    intro i
    cases hAtt : attemptOk ttsOk synth (i, seg) with
    | true =>
      have hgen : generate_audio_for_segment ttsOk synth seg dir i =
          .ok (segmentPath dir i) := by
        rw [generate_ok_iff]
        simp only [attemptOk] at hAtt
        simp [hAtt]
      simp [audioLoop, hgen, List.enumFrom, List.filter_cons, hAtt, ih (i + 1)]
    | false =>
      have hgen : ∃ msg, generate_audio_for_segment ttsOk synth seg dir i =
          .error msg := by
        rw [generate_ok_iff]
        simp only [attemptOk] at hAtt
        cases httsOk : ttsOk with
        | false => exact ⟨_, rfl⟩
        | true =>
          rw [httsOk] at hAtt
          simp only [Bool.true_and] at hAtt
          exact ⟨"synthesis failed".toList, by simp [hAtt]⟩
      obtain ⟨msg, hgen⟩ := hgen
      simp [audioLoop, hgen, List.enumFrom, List.filter_cons, hAtt, ih (i + 1)]

/-! ## Claims C1, C2, C3, C9, C10 -/

/-- C1 (counterexample): a failed synthesis attempt produces no
registry write at all.  On a one-segment document whose only synthesis
attempt fails, the registry writes are Extracting(20), Analyzing(40),
Generating(60), Finalizing(100) and the terminal result — no
`JobStatus` with progress `int(60 + 30 * 1/1) = 90` is ever written
after the attempt, contradicting the claim that the entry is
overwritten after every attempt, succeeded or skipped. -/
theorem C1_counterexample :
    ((process_pdf_background "job".toList demoPages1 "/tmp/audio".toList true
        (fun _ _ => false)).writes.map entryProgress) =
        [some 20, some 40, some 60, some 100, none] ∧
      (process_text_segments (extract_text_from_pdf demoPages1)).length = 1 ∧
      (genStatus 0 1).progress = 90 := by decide

/-- C1 (amended): during the GeneratingAudio phase a progress status is
written only after a *successful* synthesis attempt (a skipped segment
writes nothing); each such write carries progress
`int(60 + 30 * (i + 1) / total)` where `i + 1` counts all attempts so
far — succeeded or skipped — over the fixed denominator of total
segments, and the written progress values are monotonically
non-decreasing. -/
theorem C1_amended_progress_writes (ttsOk : Bool) (synth : Nat → List Char → Bool)
    (dir : List Char) (segs : List TextSegment) :
    (audioLoop ttsOk synth dir segs.length 0 segs).2 =
        ((segs.enumFrom 0).filter (attemptOk ttsOk synth)).map
          (fun p => genStatus p.1 segs.length) ∧
      List.Chain' (· ≤ ·)
        ((audioLoop ttsOk synth dir segs.length 0 segs).2.map ProcessingStatus.progress) := by
  refine ⟨(congrArg Prod.snd (audioLoop_eq ttsOk synth dir segs.length segs 0)), ?_⟩
  rw [congrArg Prod.snd (audioLoop_eq ttsOk synth dir segs.length segs 0)]
  rw [List.map_map]
  have hfst : ((segs.enumFrom 0).filter (attemptOk ttsOk synth)).Pairwise
      (fun p q => p.1 < q.1) := by
    have h1 : (segs.enumFrom 0).Pairwise (fun p q : Nat × TextSegment => p.1 < q.1) := by
      rw [← List.pairwise_map]
      rw [List.enumFrom_map_fst]
      exact List.pairwise_lt_range' 0 segs.length
    exact h1.sublist (List.filter_sublist _)
  have hle : ((segs.enumFrom 0).filter (attemptOk ttsOk synth)).Pairwise
      (fun p q : Nat × TextSegment =>
        (genStatus p.1 segs.length).progress ≤ (genStatus q.1 segs.length).progress) := by
    refine hfst.imp ?_
    intro p q h
    show 60 + 30 * (p.1 + 1) / segs.length ≤ 60 + 30 * (q.1 + 1) / segs.length
    have : 30 * (p.1 + 1) ≤ 30 * (q.1 + 1) := Nat.mul_le_mul_left 30 (by omega)
    exact Nat.add_le_add_left (Nat.div_le_div_right this) 60
  exact (List.pairwise_map.mpr hle).chain'

/-- C2: the audio list holds exactly the output paths of the successful
attempts, in segment order with no placeholders for skipped segments,
and the job still terminates as a `completed` result; on a concrete
three-segment document where the middle attempt fails, the audio list
is `[segment_0000, segment_0002]` of length 2. -/
theorem C2_partial_success :
    (∀ (job_id : List Char) (pages : List (Option (List Char))) (dir : List Char)
        (ttsOk : Bool) (synth : Nat → List Char → Bool),
      (process_pdf_background job_id pages dir ttsOk synth).audio_files =
          (((process_text_segments (extract_text_from_pdf pages)).enumFrom 0).filter
              (attemptOk ttsOk synth)).map (fun p => segmentPath dir p.1) ∧
        (process_pdf_background job_id pages dir ttsOk synth).final.status =
          "completed".toList) ∧
      ((process_pdf_background "job".toList demoPages3 "/tmp/audio".toList true
          (fun i _ => i != 1)).audio_files =
        [segmentPath "/tmp/audio".toList 0, segmentPath "/tmp/audio".toList 2] ∧
       (process_pdf_background "job".toList demoPages3 "/tmp/audio".toList true
          (fun i _ => i != 1)).audio_files.length = 2 ∧
       (process_pdf_background "job".toList demoPages3 "/tmp/audio".toList true
          (fun i _ => i != 1)).final.status = "completed".toList) := by
  refine ⟨?_, by decide, by decide, by decide⟩
  intro job_id pages dir ttsOk synth
  exact ⟨congrArg Prod.fst (audioLoop_eq ttsOk synth dir _ _ 0), rfl⟩

/-- C3: the final result's `total_pages` is the `total_pages` stamped
on the first raw segment when one exists and 0 when the document
yielded no raw segments, in which case the result is still `completed`
with an empty segment list. -/
theorem C3_total_pages (job_id : List Char) (pages : List (Option (List Char)))
    (dir : List Char) (ttsOk : Bool) (synth : Nat → List Char → Bool) :
    ((process_pdf_background job_id pages dir ttsOk synth).final.total_pages =
        match extract_text_from_pdf pages with
        | [] => 0
        | s :: _ => s.total_pages) ∧
      (extract_text_from_pdf pages = [] →
        (process_pdf_background job_id pages dir ttsOk synth).final.status =
            "completed".toList ∧
          (process_pdf_background job_id pages dir ttsOk synth).final.segments = []) := by
  refine ⟨rfl, ?_⟩
  intro h
  refine ⟨rfl, ?_⟩
  show process_text_segments (extract_text_from_pdf pages) = []
  rw [h]
  rfl

/-- C3 witness: on a document with no pages the final result reports
`total_pages = 0`, status `completed` and no segments; on the
three-segment demo document (one page) it reports `total_pages = 1`. -/
theorem C3_total_pages_witness :
    (process_pdf_background "job".toList [] "/tmp/audio".toList true
          (fun _ _ => true)).final.total_pages = 0 ∧
      (process_pdf_background "job".toList [] "/tmp/audio".toList true
          (fun _ _ => true)).final.status = "completed".toList ∧
      (process_pdf_background "job".toList [] "/tmp/audio".toList true
          (fun _ _ => true)).final.segments = [] ∧
      (process_pdf_background "job".toList demoPages3 "/tmp/audio".toList true
          (fun _ _ => true)).final.total_pages = 1 := by
  have h1 := C3_total_pages "job".toList [] "/tmp/audio".toList true (fun _ _ => true)
  have h2 := C3_total_pages "job".toList demoPages3 "/tmp/audio".toList true
    (fun _ _ => true)
  refine ⟨by simpa using h1.1, (h1.2 rfl).1, (h1.2 rfl).2, ?_⟩
  rw [h2.1]
  decide

/-- C9: the audio list is always the image of a strictly increasing
list of segment indices (each below the segment count) under
`segmentPath`, so its length never exceeds the number of processed
segments and each entry's basename embeds its 4-digit zero-padded
segment index; after a skipped segment the embedded index of the k-th
entry can exceed k (on the demo run, position 1 holds
`segment_0002.wav`), while the fetch endpoint names its download after
the requested list position (`segment_1.wav`). -/
theorem C9_audio_list_invariant :
    (∀ (ttsOk : Bool) (synth : Nat → List Char → Bool) (dir : List Char)
        (segs : List TextSegment),
      ∃ idxs : List Nat,
        (audioLoop ttsOk synth dir segs.length 0 segs).1 =
            idxs.map (segmentPath dir) ∧
          idxs.Pairwise (· < ·) ∧
          (audioLoop ttsOk synth dir segs.length 0 segs).1.length ≤ segs.length ∧
          idxs.all (fun i => i < segs.length) = true) ∧
      ((process_pdf_background "job".toList demoPages3 "/tmp/audio".toList true
          (fun i _ => i != 1)).audio_files =
        ["/tmp/audio/segment_0000.wav".toList, "/tmp/audio/segment_0002.wav".toList] ∧
       get_audio_segment
          (some (process_pdf_background "job".toList demoPages3 "/tmp/audio".toList true
            (fun i _ => i != 1)).audio_files)
          (fun _ => true) 1 =
        .fileResponse "/tmp/audio/segment_0002.wav".toList "segment_1.wav".toList) := by
  refine ⟨?_, by decide, by decide⟩
  intro ttsOk synth dir segs
  refine ⟨((segs.enumFrom 0).filter (attemptOk ttsOk synth)).map Prod.fst, ?_, ?_, ?_, ?_⟩
  · rw [congrArg Prod.fst (audioLoop_eq ttsOk synth dir segs.length segs 0)]
    rw [List.map_map]
    rfl
  · rw [List.pairwise_map]
    have h1 : (segs.enumFrom 0).Pairwise (fun p q : Nat × TextSegment => p.1 < q.1) := by
      rw [← List.pairwise_map, List.enumFrom_map_fst]
      exact List.pairwise_lt_range' 0 segs.length
    exact h1.sublist (List.filter_sublist _)
  · rw [congrArg Prod.fst (audioLoop_eq ttsOk synth dir segs.length segs 0)]
    rw [List.length_map]
    calc ((segs.enumFrom 0).filter (attemptOk ttsOk synth)).length
        ≤ (segs.enumFrom 0).length := List.length_filter_le _ _
      _ = segs.length := by simp
  · rw [List.all_eq_true]
    intro i hi
    obtain ⟨p, hp, rfl⟩ := List.mem_map.mp hi
    have hp' : p ∈ segs.enumFrom 0 := List.mem_of_mem_filter hp
    have : p.1 ∈ (segs.enumFrom 0).map Prod.fst := List.mem_map_of_mem Prod.fst hp'
    rw [List.enumFrom_map_fst] at this
    rw [List.mem_range'] at this
    obtain ⟨k, hk, hEq⟩ := this
    simp only [decide_eq_true_eq]
    omega

/-- C10: when the TTS model failed to load, every per-segment call
raises the model-unavailable error, which the per-segment handler
catches, so the job still terminates as a `completed` result carrying
all processed segments while the audio list stays empty. -/
theorem C10_model_unavailable (job_id : List Char) (pages : List (Option (List Char)))
    (dir : List Char) (synth : Nat → List Char → Bool) :
    (∀ (seg : TextSegment) (i : Nat),
      generate_audio_for_segment false synth seg dir i =
        .error "TTS model not available".toList) ∧
      (process_pdf_background job_id pages dir false synth).audio_files = [] ∧
      (process_pdf_background job_id pages dir false synth).final =
        { job_id := job_id
          segments := process_text_segments (extract_text_from_pdf pages)
          total_pages :=
            match extract_text_from_pdf pages with
            | [] => 0
            | s :: _ => s.total_pages
          status := "completed".toList } := by
  refine ⟨fun seg i => rfl, ?_, rfl⟩
  have h := congrArg Prod.fst (audioLoop_eq false synth dir
    (process_text_segments (extract_text_from_pdf pages)).length
    (process_text_segments (extract_text_from_pdf pages)) 0)
  refine h.trans ?_
  have h2 : (((process_text_segments (extract_text_from_pdf pages)).enumFrom 0).filter
      (attemptOk false synth)) = [] := by
    have hfalse : ∀ p ∈ (process_text_segments (extract_text_from_pdf pages)).enumFrom 0,
        attemptOk false synth p = (fun _ => false) p := fun p _ => rfl
    rw [List.filter_congr hfalse, List.filter_false]
  rw [h2]
  rfl

/-! ## Claim C4 -/

/-- C4 (counterexample): position `-1` on a one-element audio list with
the file on disk is *not* a not-found error: the code's only range
check is `segment_index >= len`, so Python's negative indexing serves
the last file, named `segment_-1.wav`, contradicting the claim that
every negative position is out of range and yields not-found. -/
theorem C4_counterexample :
    get_audio_segment (some ["f".toList]) (fun _ => true) (-1) =
        .fileResponse "f".toList "segment_-1.wav".toList ∧
      isNotFound (get_audio_segment (some ["f".toList]) (fun _ => true) (-1)) = false := by
  decide

/-- C4 (amended): the fetch-segment-audio operation returns not-found
exactly when the job has no audio list, or the position is `>=` the
list length, or Python indexing resolves the position (negative
positions count from the end) to a stored path whose file is no longer
on disk; an in-range position (possibly negative) whose file exists is
served as that file, and a position below `-len` raises an uncaught
`IndexError` (a server error, not a not-found). -/
theorem C4_amended_not_found_iff (entry : Option (List (List Char)))
    (onDisk : List Char → Bool) (i : Int) :
    (isNotFound (get_audio_segment entry onDisk i) = true ↔
        (entry = none ∨ ∃ files, entry = some files ∧
          ((files.length : Int) ≤ i ∨
            (∃ f, pyListGet files i = some f ∧ onDisk f = false)))) ∧
      (∀ files f, entry = some files → i < (files.length : Int) →
        pyListGet files i = some f → onDisk f = true →
        get_audio_segment entry onDisk i =
          .fileResponse f
            ("segment_".toList ++ (toString i).toList ++ ".wav".toList)) ∧
      (∀ files, entry = some files → i < -(files.length : Int) →
        get_audio_segment entry onDisk i = .indexError) := by
  refine ⟨?_, ?_, ?_⟩
  · cases entry with
    | none =>
      have hres : get_audio_segment none onDisk i =
          .notFound "Audio files not found".toList := rfl
      rw [hres]
      constructor
      · intro _
        exact Or.inl rfl
      · intro _
        rfl
    | some files =>
      by_cases hlen : (files.length : Int) ≤ i
      · have hres : get_audio_segment (some files) onDisk i =
            .notFound "Segment not found".toList := by
          rw [get_audio_segment, if_pos hlen]
        rw [hres]
        constructor
        · intro _
          exact Or.inr ⟨files, rfl, Or.inl hlen⟩
        · intro _
          rfl
      · cases hpy : pyListGet files i with
        | none =>
          have hres : get_audio_segment (some files) onDisk i = .indexError := by
            rw [get_audio_segment, if_neg hlen, hpy]
          rw [hres]
          constructor
          · intro h
            simp [isNotFound] at h
          · intro h
            exfalso
            rcases h with h | ⟨files', heq, hcase⟩
            · simp at h
            · injection heq with heq'
              subst heq'
              rcases hcase with h | ⟨f, hf, _⟩
              · exact hlen h
              · rw [hpy] at hf
                simp at hf
        | some f =>
          cases hdisk : onDisk f with
          | false =>
            have hres : get_audio_segment (some files) onDisk i =
                .notFound "Audio file not found".toList := by
              rw [get_audio_segment, if_neg hlen, hpy]
              simp [hdisk]
            rw [hres]
            constructor
            · intro _
              exact Or.inr ⟨files, rfl, Or.inr ⟨f, hpy, hdisk⟩⟩
            · intro _
              rfl
          | true =>
            have hres : get_audio_segment (some files) onDisk i =
                .fileResponse f
                  ("segment_".toList ++ (toString i).toList ++ ".wav".toList) := by
              rw [get_audio_segment, if_neg hlen, hpy]
              simp [hdisk]
            rw [hres]
            constructor
            · intro h
              simp [isNotFound] at h
            · intro h
              exfalso
              rcases h with h | ⟨files', heq, hcase⟩
              · simp at h
              · injection heq with heq'
                subst heq'
                rcases hcase with h | ⟨f', hf', hd'⟩
                · exact hlen h
                · rw [hpy] at hf'
                  injection hf' with hf''
                  subst hf''
                  rw [hdisk] at hd'
                  simp at hd'
  · intro files f heq hlt hpy hdisk
    subst heq
    rw [get_audio_segment, if_neg (not_le.mpr hlt), hpy]
    simp [hdisk]
  · intro files heq hbelow
    subst heq
    have hlt : ¬ (files.length : Int) ≤ i := by omega
    have hpy : pyListGet files i = none := by
      rw [pyListGet]
      have hneg : i < 0 := by omega
      rw [if_pos hneg, if_neg]
      omega
    rw [get_audio_segment, if_neg hlt, hpy]

/-- C4 witness: concrete instances of the amended characterization — a
missing audio list is not-found, position 0 on a one-element list with
the file on disk serves `segment_0.wav`, and position `-2` on that list
is an uncaught index error. -/
theorem C4_amended_not_found_iff_witness :
    isNotFound (get_audio_segment none (fun _ => true) 5) = true ∧
      get_audio_segment (some ["a".toList]) (fun _ => true) 0 =
        .fileResponse "a".toList "segment_0.wav".toList ∧
      get_audio_segment (some ["a".toList]) (fun _ => true) (-2) = .indexError :=
  ⟨(C4_amended_not_found_iff none (fun _ => true) 5).1.mpr (Or.inl rfl),
    (C4_amended_not_found_iff (some ["a".toList]) (fun _ => true) 0).2.1
      ["a".toList] "a".toList rfl (by decide) (by decide) rfl,
    (C4_amended_not_found_iff (some ["a".toList]) (fun _ => true) (-2)).2.2
      ["a".toList] rfl (by decide)⟩

